import Mathlib

/-!
Verification of the web-audit-tools core against its specification.

The Go sources are shallowly embedded:
* `internal/pagerank/types.go` — the link `Graph` with `addPage` / `addLink`
  (the Go map `Pages` becomes an association list, slices become lists);
* `internal/pagerank/algorithm.go` — `compute` (power iteration), with
  float64 arithmetic read exactly over `ℚ`;
* `internal/crawler/crawler.go` — the seed validation of `Crawl`, the
  depth check of `processURL`, the non-blocking enqueue on the bounded
  task channel, the split visited-check / visited-mark of
  `shouldVisit` / `markVisited` (as an interleaving model), and the
  safety-cap monitor (as a sequential step model);
* `internal/indexer/robots.go` — `Load` / `IsBlocked` of the robots.txt
  checker, with the HTTP fetch abstracted into its observable outcome.
-/

namespace WebAudit

/-! ## PageRank graph (internal/pagerank/types.go) -/

/-- Embeds `pagerank.Graph`: `Pages` (Go map URL→index) as an association
list in insertion order, `Indices`, `OutLinks`, `InLinks`, `OutDegree`. -/
structure Graph where
  pages : List (String × Nat)
  indices : List String
  outLinks : List (List Nat)
  inLinks : List (List Nat)
  outDegree : List Nat
deriving Repr, DecidableEq

/-- Embeds `pagerank.NewGraph`. -/
def newGraph : Graph :=
  { pages := [], indices := [], outLinks := [], inLinks := [], outDegree := [] }

/-- Embeds `Graph.Size`. -/
def Graph.size (g : Graph) : Nat := g.indices.length

/-- Embeds `pagerank.(*Graph).AddPage`: return the existing index if the
URL is already mapped, otherwise assign the next dense index and extend
every per-node slice. -/
def addPage (g : Graph) (url : String) : Graph × Nat :=
  match g.pages.find? (fun p => p.1 == url) with
  | some p => (g, p.2)
  | none =>
    let idx := g.indices.length
    ({ pages := g.pages ++ [(url, idx)]
       indices := g.indices ++ [url]
       outLinks := g.outLinks ++ [[]]
       inLinks := g.inLinks ++ [[]]
       outDegree := g.outDegree ++ [0] }, idx)

/-- Embeds `pagerank.(*Graph).AddLink`: add both endpoints, then return
unchanged if the ordered edge is already recorded in `OutLinks[fromIdx]`,
otherwise append to both adjacency lists and bump the out-degree. -/
def addLink (g : Graph) (fr : String) (dst : String) : Graph :=
  let p1 := addPage g fr
  let g1 := p1.1
  let fromIdx := p1.2
  let p2 := addPage g1 dst
  let g2 := p2.1
  let toIdx := p2.2
  if toIdx ∈ g2.outLinks.getD fromIdx [] then g2
  else
    { g2 with
      outLinks := g2.outLinks.set fromIdx (g2.outLinks.getD fromIdx [] ++ [toIdx])
      inLinks := g2.inLinks.set toIdx (g2.inLinks.getD toIdx [] ++ [fromIdx])
      outDegree := g2.outDegree.set fromIdx (g2.outDegree.getD fromIdx 0 + 1) }

/-! ## PageRank computation (internal/pagerank/algorithm.go)

Float64 arithmetic is read in exact arithmetic over `ℚ`. -/

/-- Embeds `pagerank.ComputeConfig` (`MaxIterations` is a Go `int`). -/
structure ComputeConfig where
  dampingFactor : ℚ
  maxIterations : Int
  tolerance : ℚ

/-- One pass of the iteration body of `pagerank.Compute` (lines 50–71):
dangling mass is collected from zero-out-degree nodes and redistributed
uniformly; each new score is teleport + dangling contribution + damped
in-link contributions. -/
def iterStep (g : Graph) (d : ℚ) (scores : List ℚ) : List ℚ :=
  let n := g.size
  let danglingSum :=
    ((List.range n).map (fun i =>
      if g.outDegree.getD i 0 = 0 then scores.getD i 0 else 0)).sum
  let danglingContribution := d * danglingSum / (n : ℚ)
  let teleport := (1 - d) / (n : ℚ)
  (List.range n).map (fun i =>
    teleport + danglingContribution +
      ((g.inLinks.getD i []).map (fun j =>
        if 0 < g.outDegree.getD j 0 then
          d * scores.getD j 0 / (g.outDegree.getD j 0 : ℚ)
        else 0)).sum)

/-- L1 distance between score vectors, as in the convergence test of
`pagerank.Compute` (lines 73–77). -/
def l1diff (n : Nat) (xs ys : List ℚ) : ℚ :=
  ((List.range n).map (fun i => |xs.getD i 0 - ys.getD i 0|)).sum

/-- The iteration loop of `pagerank.Compute` (lines 47–86): run up to
`fuel` passes, counting completed iterations, stopping early with
`converged = true` when the L1 difference drops below the tolerance. -/
def computeLoop (g : Graph) (d : ℚ) (tol : ℚ) :
    List ℚ → Nat → Nat → List ℚ × Nat × Bool
  | scores, iterDone, 0 => (scores, iterDone, false)
  | scores, iterDone, fuel + 1 =>
    let newScores := iterStep g d scores
    let diff := l1diff g.size newScores scores
    if diff < tol then (newScores, iterDone + 1, true)
    else computeLoop g d tol newScores (iterDone + 1) fuel

/-- Embeds `pagerank.Compute`: empty graph short-circuits; otherwise the
scores start uniform at `1/n` and the loop runs for at most
`MaxIterations` passes (a non-positive Go `int` bound means the loop body
never runs, hence `Int.toNat`). -/
def compute (g : Graph) (cfg : ComputeConfig) : List ℚ × Nat × Bool :=
  let n := g.size
  if n = 0 then ([], 0, true)
  else
    computeLoop g cfg.dampingFactor cfg.tolerance
      (List.replicate n (1 / (n : ℚ))) 0 cfg.maxIterations.toNat

example :
    compute (addLink (addLink newGraph "a" "b") "b" "a")
      { dampingFactor := 1/2, maxIterations := 5, tolerance := 1/1000000 } =
    ([1/2, 1/2], 1, true) := by with_unfolding_all decide

example : (addLink (addLink newGraph "a" "b") "a" "b").outDegree = [1, 0] := by
  decide

/-! ## List helper lemmas -/

lemma getD_snoc {α : Type} (l : List α) (x d : α) (i : Nat) :
    (l ++ [x]).getD i d =
      if i < l.length then l.getD i d else if i = l.length then x else d := by
  rcases lt_trichotomy i l.length with h | h | h
  · rw [List.getD_append _ _ _ _ h, if_pos h]
  · subst h
    rw [if_neg (lt_irrefl _), if_pos rfl, List.getD_append_right _ _ _ _ (le_refl _)]
    simp
  · rw [if_neg (by omega), if_neg (by omega), List.getD_eq_getElem?_getD,
      List.getElem?_eq_none (by simp; omega)]
    rfl

lemma getD_set_self {α : Type} (l : List α) (i : Nat) (x d : α) (h : i < l.length) :
    (l.set i x).getD i d = x := by
  simp [List.getD_eq_getElem?_getD, List.getElem?_set_self', h]

lemma getD_set_ne {α : Type} (l : List α) (i j : Nat) (x d : α) (h : i ≠ j) :
    (l.set i x).getD j d = l.getD j d := by
  simp [List.getD_eq_getElem?_getD, List.getElem?_set_ne h]

lemma count_eq_zero_of_ge {l : List Nat} {n : Nat} (hmem : ∀ x ∈ l, x < n)
    {m : Nat} (hm : n ≤ m) : l.count m = 0 :=
  List.count_eq_zero.mpr (fun hmem' => absurd (hmem m hmem') (by omega))

lemma count_snoc (l : List Nat) (a b : Nat) :
    (l ++ [b]).count a = l.count a + if b = a then 1 else 0 := by
  simp [List.count_append, List.count_singleton']

lemma sum_map_range (n : Nat) (f : Nat → ℚ) :
    ((List.range n).map f).sum = ∑ i in Finset.range n, f i := by
  induction n with
  | zero => simp
  | succ m ih =>
    rw [List.range_succ, Finset.sum_range_succ, List.map_append, List.sum_append, ih]
    simp

lemma sum_range_getD (l : List ℚ) :
    ∑ i in Finset.range l.length, l.getD i 0 = l.sum := by
  induction l with
  | nil => simp
  | cons x xs ih =>
    rw [List.length_cons, Finset.sum_range_succ']
    simp only [List.getD_cons_succ, List.getD_cons_zero, ih, List.sum_cons]
    ring

lemma sum_count_range_eq_length (l : List Nat) (n : Nat) (hmem : ∀ x ∈ l, x < n) :
    ∑ m in Finset.range n, l.count m = l.length := by
  have h1 : ∑ a in l.toFinset, l.count a = l.length := by
    simp [← Multiset.toFinset_sum_count_eq (l : Multiset Nat)]
  rw [← h1]
  symm
  apply Finset.sum_subset
  · intro x hx
    simp only [List.mem_toFinset] at hx
    exact Finset.mem_range.mpr (hmem x hx)
  · intro x _ hx
    simp only [List.mem_toFinset] at hx
    simp [List.count_eq_zero.mpr hx]

lemma sum_map_count_range (l : List Nat) (n : Nat) (hmem : ∀ x ∈ l, x < n) (f : Nat → ℚ) :
    (l.map f).sum = ∑ m in Finset.range n, (l.count m : ℚ) * f m := by
  rw [Finset.sum_list_map_count l f]
  have h2 : ∑ m in l.toFinset, l.count m • f m = ∑ m in l.toFinset, (l.count m : ℚ) * f m := by
    simp [nsmul_eq_mul]
  rw [h2]
  apply Finset.sum_subset
  · intro x hx
    simp only [List.mem_toFinset] at hx
    exact Finset.mem_range.mpr (hmem x hx)
  · intro x _ hx
    simp only [List.mem_toFinset] at hx
    simp [List.count_eq_zero.mpr hx]

/-! ## Graph well-formedness

The structural invariant of `pagerank.Graph` stated in the spec: dense
indices, matching slice lengths, `OutDegree[i] == len(OutLinks[i])`, every
recorded edge present in both adjacency lists the same number of times,
and no duplicate ordered edge.  All accessor facts are phrased through
`getD`, whose defaults (`0`, `[]`) agree with out-of-range reads. -/

structure WF (g : Graph) : Prop where
  pagesIdx : ∀ p ∈ g.pages, p.2 < g.size
  outLen : g.outLinks.length = g.size
  inLen : g.inLinks.length = g.size
  degLen : g.outDegree.length = g.size
  degEq : ∀ i, g.outDegree.getD i 0 = (g.outLinks.getD i []).length
  outMem : ∀ i, ∀ j ∈ g.outLinks.getD i [], j < g.size
  inMem : ∀ i, ∀ j ∈ g.inLinks.getD i [], j < g.size
  outNodup : ∀ i, (g.outLinks.getD i []).Nodup
  countEq : ∀ a b, (g.outLinks.getD a []).count b = (g.inLinks.getD b []).count a

/-- Graphs reachable from `NewGraph` by `AddPage` / `AddLink` calls. -/
inductive Built : Graph → Prop
  | new : Built newGraph
  | page (g : Graph) (u : String) : Built g → Built (addPage g u).1
  | link (g : Graph) (a b : String) : Built g → Built (addLink g a b)

lemma wf_newGraph : WF newGraph := by
  constructor <;> simp [newGraph, Graph.size]

/-! ### `addPage` facts -/

lemma addPage_of_found {g : Graph} {u : String} {p : String × Nat}
    (h : g.pages.find? (fun q => q.1 == u) = some p) : addPage g u = (g, p.2) := by
  simp [addPage, h]

lemma addPage_of_not_found {g : Graph} {u : String}
    (h : g.pages.find? (fun q => q.1 == u) = none) :
    addPage g u =
      ({ pages := g.pages ++ [(u, g.indices.length)]
         indices := g.indices ++ [u]
         outLinks := g.outLinks ++ [[]]
         inLinks := g.inLinks ++ [[]]
         outDegree := g.outDegree ++ [0] }, g.indices.length) := by
  simp [addPage, h]

lemma addPage_size_le (g : Graph) (u : String) : g.size ≤ (addPage g u).1.size := by
  cases h : g.pages.find? (fun q => q.1 == u) with
  | some p => rw [addPage_of_found h]
  | none => rw [addPage_of_not_found h]; simp [Graph.size]

lemma addPage_idx_lt {g : Graph} (hwf : WF g) (u : String) :
    (addPage g u).2 < (addPage g u).1.size := by
  cases h : g.pages.find? (fun q => q.1 == u) with
  | some p =>
    rw [addPage_of_found h]
    exact hwf.pagesIdx p (List.mem_of_find?_eq_some h)
  | none => rw [addPage_of_not_found h]; simp [Graph.size]

lemma addPage_outLinks_getD (g : Graph) (u : String) (i : Nat) :
    ((addPage g u).1).outLinks.getD i [] = g.outLinks.getD i [] := by
  cases h : g.pages.find? (fun q => q.1 == u) with
  | some p => rw [addPage_of_found h]
  | none =>
    rw [addPage_of_not_found h]
    show (g.outLinks ++ [[]]).getD i [] = _
    rw [getD_snoc]
    split
    · rfl
    · split
      · rw [List.getD_eq_default _ _ (by omega)]
      · rw [List.getD_eq_default _ _ (by omega)]

lemma addPage_inLinks_getD (g : Graph) (u : String) (i : Nat) :
    ((addPage g u).1).inLinks.getD i [] = g.inLinks.getD i [] := by
  cases h : g.pages.find? (fun q => q.1 == u) with
  | some p => rw [addPage_of_found h]
  | none =>
    rw [addPage_of_not_found h]
    show (g.inLinks ++ [[]]).getD i [] = _
    rw [getD_snoc]
    split
    · rfl
    · split
      · rw [List.getD_eq_default _ _ (by omega)]
      · rw [List.getD_eq_default _ _ (by omega)]

lemma addPage_outDegree_getD (g : Graph) (u : String) (i : Nat) :
    ((addPage g u).1).outDegree.getD i 0 = g.outDegree.getD i 0 := by
  cases h : g.pages.find? (fun q => q.1 == u) with
  | some p => rw [addPage_of_found h]
  | none =>
    rw [addPage_of_not_found h]
    show (g.outDegree ++ [0]).getD i 0 = _
    rw [getD_snoc]
    split
    · rfl
    · split
      · rw [List.getD_eq_default _ _ (by omega)]
      · rw [List.getD_eq_default _ _ (by omega)]

lemma wf_addPage {g : Graph} (hwf : WF g) (u : String) : WF (addPage g u).1 := by
  have hsize := addPage_size_le g u
  refine ⟨?_, ?_, ?_, ?_, ?_, ?_, ?_, ?_, ?_⟩
  · intro p hp
    cases h : g.pages.find? (fun q => q.1 == u) with
    | some q =>
      rw [addPage_of_found h] at hp ⊢
      exact hwf.pagesIdx p hp
    | none =>
      rw [addPage_of_not_found h] at hp ⊢
      simp only [List.mem_append, List.mem_singleton] at hp
      rcases hp with hp | hp
      · have := hwf.pagesIdx p hp
        simp only [Graph.size, List.length_append, List.length_singleton] at this ⊢
        omega
      · subst hp
        simp [Graph.size]
  · cases h : g.pages.find? (fun q => q.1 == u) with
    | some q => rw [addPage_of_found h]; exact hwf.outLen
    | none =>
      rw [addPage_of_not_found h]
      simp only [Graph.size, List.length_append, List.length_singleton]
      rw [hwf.outLen]
      rfl
  · cases h : g.pages.find? (fun q => q.1 == u) with
    | some q => rw [addPage_of_found h]; exact hwf.inLen
    | none =>
      rw [addPage_of_not_found h]
      simp only [Graph.size, List.length_append, List.length_singleton]
      rw [hwf.inLen]
      rfl
  · cases h : g.pages.find? (fun q => q.1 == u) with
    | some q => rw [addPage_of_found h]; exact hwf.degLen
    | none =>
      rw [addPage_of_not_found h]
      simp only [Graph.size, List.length_append, List.length_singleton]
      rw [hwf.degLen]
      rfl
  · intro i
    rw [addPage_outDegree_getD, addPage_outLinks_getD]
    exact hwf.degEq i
  · intro i j hj
    rw [addPage_outLinks_getD] at hj
    exact lt_of_lt_of_le (hwf.outMem i j hj) hsize
  · intro i j hj
    rw [addPage_inLinks_getD] at hj
    exact lt_of_lt_of_le (hwf.inMem i j hj) hsize
  · intro i
    rw [addPage_outLinks_getD]
    exact hwf.outNodup i
  · intro a b
    rw [addPage_outLinks_getD, addPage_inLinks_getD]
    exact hwf.countEq a b

/-! ### `addLink` facts -/

lemma addLink_def (g : Graph) (fr dst : String) :
    addLink g fr dst =
      (if (addPage (addPage g fr).1 dst).2 ∈
          ((addPage (addPage g fr).1 dst).1).outLinks.getD (addPage g fr).2 [] then
        (addPage (addPage g fr).1 dst).1
      else
        { (addPage (addPage g fr).1 dst).1 with
          outLinks := ((addPage (addPage g fr).1 dst).1).outLinks.set (addPage g fr).2
            (((addPage (addPage g fr).1 dst).1).outLinks.getD (addPage g fr).2 [] ++
              [(addPage (addPage g fr).1 dst).2])
          inLinks := ((addPage (addPage g fr).1 dst).1).inLinks.set
            (addPage (addPage g fr).1 dst).2
            (((addPage (addPage g fr).1 dst).1).inLinks.getD
              (addPage (addPage g fr).1 dst).2 [] ++ [(addPage g fr).2])
          outDegree := ((addPage (addPage g fr).1 dst).1).outDegree.set (addPage g fr).2
            (((addPage (addPage g fr).1 dst).1).outDegree.getD (addPage g fr).2 0 + 1) }) :=
  rfl

lemma wf_update {g2 : Graph} (hwf2 : WF g2) {fi ti : Nat}
    (hfi : fi < g2.size) (hti : ti < g2.size)
    (hmem : ti ∉ g2.outLinks.getD fi []) :
    WF { g2 with
      outLinks := g2.outLinks.set fi (g2.outLinks.getD fi [] ++ [ti])
      inLinks := g2.inLinks.set ti (g2.inLinks.getD ti [] ++ [fi])
      outDegree := g2.outDegree.set fi (g2.outDegree.getD fi 0 + 1) } := by
  have hfiL : fi < g2.outLinks.length := by rw [hwf2.outLen]; exact hfi
  have hfiD : fi < g2.outDegree.length := by rw [hwf2.degLen]; exact hfi
  have htiL : ti < g2.inLinks.length := by rw [hwf2.inLen]; exact hti
  have hout : ∀ a, (g2.outLinks.set fi (g2.outLinks.getD fi [] ++ [ti])).getD a [] =
      if a = fi then g2.outLinks.getD fi [] ++ [ti] else g2.outLinks.getD a [] := by
    intro a
    by_cases ha : a = fi
    · subst ha; rw [if_pos rfl]; exact getD_set_self _ _ _ _ hfiL
    · rw [if_neg ha]; exact getD_set_ne _ _ _ _ _ (fun h => ha h.symm)
  have hin : ∀ b, (g2.inLinks.set ti (g2.inLinks.getD ti [] ++ [fi])).getD b [] =
      if b = ti then g2.inLinks.getD ti [] ++ [fi] else g2.inLinks.getD b [] := by
    intro b
    by_cases hb : b = ti
    · subst hb; rw [if_pos rfl]; exact getD_set_self _ _ _ _ htiL
    · rw [if_neg hb]; exact getD_set_ne _ _ _ _ _ (fun h => hb h.symm)
  have hdeg : ∀ i, (g2.outDegree.set fi (g2.outDegree.getD fi 0 + 1)).getD i 0 =
      if i = fi then g2.outDegree.getD fi 0 + 1 else g2.outDegree.getD i 0 := by
    intro i
    by_cases hi : i = fi
    · subst hi; rw [if_pos rfl]; exact getD_set_self _ _ _ _ hfiD
    · rw [if_neg hi]; exact getD_set_ne _ _ _ _ _ (fun h => hi h.symm)
  refine ⟨?_, ?_, ?_, ?_, ?_, ?_, ?_, ?_, ?_⟩
  · exact hwf2.pagesIdx
  · show (g2.outLinks.set _ _).length = g2.size
    rw [List.length_set]; exact hwf2.outLen
  · show (g2.inLinks.set _ _).length = g2.size
    rw [List.length_set]; exact hwf2.inLen
  · show (g2.outDegree.set _ _).length = g2.size
    rw [List.length_set]; exact hwf2.degLen
  · intro i
    rw [hdeg i, hout i]
    by_cases hi : i = fi
    · rw [if_pos hi, if_pos hi, List.length_append, List.length_singleton, hwf2.degEq fi]
    · rw [if_neg hi, if_neg hi, hwf2.degEq i]
  · intro i j hj
    show j < g2.size
    rw [hout i] at hj
    by_cases hi : i = fi
    · rw [if_pos hi] at hj
      rcases List.mem_append.mp hj with hj | hj
      · exact hwf2.outMem fi j hj
      · rw [List.mem_singleton.mp hj]; exact hti
    · rw [if_neg hi] at hj
      exact hwf2.outMem i j hj
  · intro i j hj
    show j < g2.size
    rw [hin i] at hj
    by_cases hi : i = ti
    · rw [if_pos hi] at hj
      rcases List.mem_append.mp hj with hj | hj
      · exact hwf2.inMem ti j hj
      · rw [List.mem_singleton.mp hj]; exact hfi
    · rw [if_neg hi] at hj
      exact hwf2.inMem i j hj
  · intro i
    rw [hout i]
    by_cases hi : i = fi
    · rw [if_pos hi]
      exact List.Nodup.append (hwf2.outNodup fi) (List.nodup_singleton ti)
        (List.disjoint_singleton.mpr hmem)
    · rw [if_neg hi]; exact hwf2.outNodup i
  · intro a b
    rw [hout a, hin b]
    by_cases ha : a = fi <;> by_cases hb : b = ti
    · rw [if_pos ha, if_pos hb, count_snoc, count_snoc, ha, hb, if_pos rfl, if_pos rfl,
        hwf2.countEq fi ti]
    · rw [if_pos ha, if_neg hb, count_snoc, if_neg (fun h => hb h.symm), Nat.add_zero,
        ha, hwf2.countEq fi b]
    · rw [if_neg ha, if_pos hb, count_snoc, if_neg (fun h => ha h.symm), Nat.add_zero,
        hb, hwf2.countEq a ti]
    · rw [if_neg ha, if_neg hb, hwf2.countEq a b]

lemma wf_addLink {g : Graph} (hwf : WF g) (fr dst : String) : WF (addLink g fr dst) := by
  have hwf1 : WF (addPage g fr).1 := wf_addPage hwf fr
  have hwf2 : WF (addPage (addPage g fr).1 dst).1 := wf_addPage hwf1 dst
  have hfi : (addPage g fr).2 < ((addPage (addPage g fr).1 dst).1).size :=
    lt_of_lt_of_le (addPage_idx_lt hwf fr) (addPage_size_le _ dst)
  have hti : (addPage (addPage g fr).1 dst).2 < ((addPage (addPage g fr).1 dst).1).size :=
    addPage_idx_lt hwf1 dst
  rw [addLink_def]
  split
  · exact hwf2
  · exact wf_update hwf2 hfi hti (by assumption)

lemma wf_of_built {g : Graph} (h : Built g) : WF g := by
  induction h with
  | new => exact wf_newGraph
  | page g u _ ih => exact wf_addPage ih u
  | link g a b _ ih => exact wf_addLink ih a b

lemma addLink_pages (g : Graph) (a b : String) :
    (addLink g a b).pages = ((addPage (addPage g a).1 b).1).pages := by
  rw [addLink_def]
  split <;> rfl

lemma addPage_find?_self (g : Graph) (u : String) :
    ((addPage g u).1).pages.find? (fun q => q.1 == u) = some (u, (addPage g u).2) := by
  cases h : g.pages.find? (fun q => q.1 == u) with
  | some p =>
    rw [addPage_of_found h]
    have hp : p.1 = u := by simpa using List.find?_some h
    rw [h]
    cases p
    simp_all
  | none =>
    rw [addPage_of_not_found h]
    show List.find? _ (g.pages ++ [(u, g.indices.length)]) = _
    rw [List.find?_append, h]
    simp

lemma find?_addPage_mono {g : Graph} {u : String} {p : String × Nat}
    (h : g.pages.find? (fun q => q.1 == u) = some p) (u' : String) :
    ((addPage g u').1).pages.find? (fun q => q.1 == u) = some p := by
  cases h' : g.pages.find? (fun q => q.1 == u') with
  | some q => rw [addPage_of_found h']; exact h
  | none =>
    rw [addPage_of_not_found h']
    show List.find? _ (g.pages ++ _) = _
    rw [List.find?_append, h]
    rfl

lemma addLink_outLinks_mem {g : Graph} (hwf : WF g) (fr dst : String) :
    (addPage (addPage g fr).1 dst).2 ∈
      (addLink g fr dst).outLinks.getD (addPage g fr).2 [] := by
  have hwf1 : WF (addPage g fr).1 := wf_addPage hwf fr
  have hwf2 : WF (addPage (addPage g fr).1 dst).1 := wf_addPage hwf1 dst
  have hfi : (addPage g fr).2 < ((addPage (addPage g fr).1 dst).1).outLinks.length := by
    rw [hwf2.outLen]
    exact lt_of_lt_of_le (addPage_idx_lt hwf fr) (addPage_size_le _ dst)
  rw [addLink_def]
  split
  · assumption
  · show _ ∈ (List.set _ _ _).getD _ []
    rw [getD_set_self _ _ _ _ hfi]
    exact List.mem_append_right _ (List.mem_singleton.mpr rfl)

lemma addLink_idem {g : Graph} (hwf : WF g) (fr dst : String) :
    addLink (addLink g fr dst) fr dst = addLink g fr dst := by
  have hfind_f : (addLink g fr dst).pages.find? (fun q => q.1 == fr) =
      some (fr, (addPage g fr).2) := by
    rw [addLink_pages]
    exact find?_addPage_mono (addPage_find?_self g fr) dst
  have hfind_t : (addLink g fr dst).pages.find? (fun q => q.1 == dst) =
      some (dst, (addPage (addPage g fr).1 dst).2) := by
    rw [addLink_pages]
    exact addPage_find?_self (addPage g fr).1 dst
  have h1 : addPage (addLink g fr dst) fr = (addLink g fr dst, (addPage g fr).2) :=
    addPage_of_found hfind_f
  have h2 : addPage (addLink g fr dst) dst =
      (addLink g fr dst, (addPage (addPage g fr).1 dst).2) :=
    addPage_of_found hfind_t
  rw [addLink_def (addLink g fr dst) fr dst, h1, h2]
  exact if_pos (addLink_outLinks_mem hwf fr dst)

lemma addLink_effects {g : Graph} (hwf : WF g) (fr dst : String)
    (hmem : (addPage (addPage g fr).1 dst).2 ∉ g.outLinks.getD (addPage g fr).2 []) :
    (addLink g fr dst).outDegree.getD (addPage g fr).2 0 =
        g.outDegree.getD (addPage g fr).2 0 + 1
    ∧ (addLink g fr dst).outLinks.getD (addPage g fr).2 [] =
        g.outLinks.getD (addPage g fr).2 [] ++ [(addPage (addPage g fr).1 dst).2]
    ∧ (addLink g fr dst).inLinks.getD (addPage (addPage g fr).1 dst).2 [] =
        g.inLinks.getD (addPage (addPage g fr).1 dst).2 [] ++ [(addPage g fr).2] := by
  have hwf1 : WF (addPage g fr).1 := wf_addPage hwf fr
  have hwf2 : WF (addPage (addPage g fr).1 dst).1 := wf_addPage hwf1 dst
  have houtG : ((addPage (addPage g fr).1 dst).1).outLinks.getD (addPage g fr).2 [] =
      g.outLinks.getD (addPage g fr).2 [] := by
    rw [addPage_outLinks_getD, addPage_outLinks_getD]
  have hinG : ((addPage (addPage g fr).1 dst).1).inLinks.getD
      (addPage (addPage g fr).1 dst).2 [] =
      g.inLinks.getD (addPage (addPage g fr).1 dst).2 [] := by
    rw [addPage_inLinks_getD, addPage_inLinks_getD]
  have hdegG : ((addPage (addPage g fr).1 dst).1).outDegree.getD (addPage g fr).2 0 =
      g.outDegree.getD (addPage g fr).2 0 := by
    rw [addPage_outDegree_getD, addPage_outDegree_getD]
  have hfiL : (addPage g fr).2 < ((addPage (addPage g fr).1 dst).1).outLinks.length := by
    rw [hwf2.outLen]
    exact lt_of_lt_of_le (addPage_idx_lt hwf fr) (addPage_size_le _ dst)
  have hfiD : (addPage g fr).2 < ((addPage (addPage g fr).1 dst).1).outDegree.length := by
    rw [hwf2.degLen]
    exact lt_of_lt_of_le (addPage_idx_lt hwf fr) (addPage_size_le _ dst)
  have htiL : (addPage (addPage g fr).1 dst).2 <
      ((addPage (addPage g fr).1 dst).1).inLinks.length := by
    rw [hwf2.inLen]
    exact addPage_idx_lt hwf1 dst
  have hmem2 : (addPage (addPage g fr).1 dst).2 ∉
      ((addPage (addPage g fr).1 dst).1).outLinks.getD (addPage g fr).2 [] := by
    rw [houtG]; exact hmem
  rw [addLink_def, if_neg hmem2]
  refine ⟨?_, ?_, ?_⟩
  · show (List.set _ _ _).getD _ 0 = _
    rw [getD_set_self _ _ _ _ hfiD, hdegG]
  · show (List.set _ _ _).getD _ [] = _
    rw [getD_set_self _ _ _ _ hfiL, houtG]
  · show (List.set _ _ _).getD _ [] = _
    rw [getD_set_self _ _ _ _ htiL, hinG]

/-- C4: `AddLink(from,to)` is idempotent per ordered pair — a second call with
the same `(from,to)` leaves the graph unchanged; the first call (ordered edge
not yet recorded) increments `from`'s out-degree by exactly one and appends
`to` / `from` once to the respective adjacency lists; and every graph
reachable by `AddPage` / `AddLink` calls records each ordered edge at most
once, has every edge in both adjacency lists exactly once, and satisfies
`OutDegree[i] == len(OutLinks[i])`. -/
theorem addLink_idempotent_and_graph_invariant (g : Graph) (hg : Built g)
    (fr dst : String) :
    addLink (addLink g fr dst) fr dst = addLink g fr dst
    ∧ ((addPage (addPage g fr).1 dst).2 ∉ g.outLinks.getD (addPage g fr).2 [] →
        (addLink g fr dst).outDegree.getD (addPage g fr).2 0 =
            g.outDegree.getD (addPage g fr).2 0 + 1
        ∧ (addLink g fr dst).outLinks.getD (addPage g fr).2 [] =
            g.outLinks.getD (addPage g fr).2 [] ++ [(addPage (addPage g fr).1 dst).2]
        ∧ (addLink g fr dst).inLinks.getD (addPage (addPage g fr).1 dst).2 [] =
            g.inLinks.getD (addPage (addPage g fr).1 dst).2 [] ++ [(addPage g fr).2])
    ∧ (∀ a b : Nat, (g.outLinks.getD a []).count b ≤ 1
        ∧ (g.outLinks.getD a []).count b = (g.inLinks.getD b []).count a)
    ∧ (∀ i : Nat, g.outDegree.getD i 0 = (g.outLinks.getD i []).length) := by
  have hwf := wf_of_built hg
  exact ⟨addLink_idem hwf fr dst, addLink_effects hwf fr dst,
    fun a b => ⟨List.nodup_iff_count_le_one.mp (hwf.outNodup a) b, hwf.countEq a b⟩,
    hwf.degEq⟩

/-- Witness for C4 at the concrete graph `{a → b}` and pair `("a", "c")`. -/
theorem addLink_idempotent_and_graph_invariant_witness :
    Built (addLink newGraph "a" "b")
    ∧ addLink (addLink (addLink newGraph "a" "b") "a" "c") "a" "c" =
        addLink (addLink newGraph "a" "b") "a" "c" :=
  ⟨Built.link newGraph "a" "b" Built.new,
    (addLink_idempotent_and_graph_invariant (addLink newGraph "a" "b")
      (Built.link newGraph "a" "b" Built.new) "a" "c").1⟩

/-! ## Mass conservation of the PageRank iteration (C1) -/

lemma iterStep_length (g : Graph) (d : ℚ) (scores : List ℚ) :
    (iterStep g d scores).length = g.size := by
  simp [iterStep]

lemma double_sum_in_links {g : Graph} (hwf : WF g) (f : Nat → ℚ) :
    ∑ i in Finset.range g.size, ((g.inLinks.getD i []).map f).sum =
      ∑ j in Finset.range g.size, ((g.outLinks.getD j []).length : ℚ) * f j := by
  have h1 : ∀ i ∈ Finset.range g.size, ((g.inLinks.getD i []).map f).sum =
      ∑ j in Finset.range g.size, ((g.inLinks.getD i []).count j : ℚ) * f j :=
    fun i _ => sum_map_count_range _ _ (hwf.inMem i) f
  rw [Finset.sum_congr rfl h1, Finset.sum_comm]
  apply Finset.sum_congr rfl
  intro j _
  rw [← Finset.sum_mul]
  congr 1
  rw [← Nat.cast_sum]
  congr 1
  have h2 : ∀ i ∈ Finset.range g.size,
      (g.inLinks.getD i []).count j = (g.outLinks.getD j []).count i :=
    fun i _ => (hwf.countEq j i).symm
  rw [Finset.sum_congr rfl h2]
  exact sum_count_range_eq_length _ _ (hwf.outMem j)

lemma iterStep_sum {g : Graph} (hwf : WF g) (hn : g.size ≠ 0) (d : ℚ) (scores : List ℚ)
    (hlen : scores.length = g.size) (hsum : scores.sum = 1) :
    (iterStep g d scores).sum = 1 := by
  have hcast : (g.size : ℚ) ≠ 0 := Nat.cast_ne_zero.mpr hn
  have hsum' : ∑ j in Finset.range g.size, scores.getD j 0 = 1 := by
    rw [← hlen, sum_range_getD, hsum]
  simp only [iterStep]
  rw [sum_map_range, Finset.sum_add_distrib, Finset.sum_const, Finset.card_range,
    nsmul_eq_mul, double_sum_in_links hwf]
  have hterm : ∀ j ∈ Finset.range g.size,
      ((g.outLinks.getD j []).length : ℚ) *
        (if 0 < g.outDegree.getD j 0 then
          d * scores.getD j 0 / (g.outDegree.getD j 0 : ℚ) else 0) =
      d * (if 0 < g.outDegree.getD j 0 then scores.getD j 0 else 0) := by
    intro j _
    rcases Nat.eq_zero_or_pos (g.outDegree.getD j 0) with h | h
    · rw [if_neg (by omega), if_neg (by omega), mul_zero, mul_zero]
    · have hdegne : (g.outDegree.getD j 0 : ℚ) ≠ 0 := Nat.cast_ne_zero.mpr (by omega)
      rw [if_pos h, if_pos h, ← hwf.degEq j, mul_comm, div_mul_cancel₀ _ hdegne]
  rw [Finset.sum_congr rfl hterm, ← Finset.mul_sum, sum_map_range]
  have hsplit :
      (∑ i in Finset.range g.size,
        (if g.outDegree.getD i 0 = 0 then scores.getD i 0 else 0)) +
      (∑ i in Finset.range g.size,
        (if 0 < g.outDegree.getD i 0 then scores.getD i 0 else 0)) = 1 := by
    rw [← Finset.sum_add_distrib, ← hsum']
    apply Finset.sum_congr rfl
    intro j _
    rcases Nat.eq_zero_or_pos (g.outDegree.getD j 0) with h | h
    · rw [if_pos h, if_neg (by omega), add_zero]
    · rw [if_neg (by omega), if_pos h, zero_add]
  generalize hA : (∑ i in Finset.range g.size,
    (if g.outDegree.getD i 0 = 0 then scores.getD i 0 else 0)) = A at hsplit ⊢
  generalize hB : (∑ i in Finset.range g.size,
    (if 0 < g.outDegree.getD i 0 then scores.getD i 0 else 0)) = B at hsplit ⊢
  have hmain : (g.size : ℚ) * ((1 - d) / g.size + d * A / g.size) = (1 - d) + d * A := by
    field_simp
  rw [hmain]
  calc (1 - d) + d * A + d * B = (1 - d) + d * (A + B) := by ring
    _ = 1 := by rw [hsplit]; ring

lemma computeLoop_sum {g : Graph} (hwf : WF g) (hn : g.size ≠ 0) (d tol : ℚ)
    (fuel : Nat) :
    ∀ (scores : List ℚ) (iterDone : Nat), scores.length = g.size → scores.sum = 1 →
      ((computeLoop g d tol scores iterDone fuel).1).sum = 1 := by
  induction fuel with
  | zero =>
    intro scores iterDone _ hsum
    simpa [computeLoop] using hsum
  | succ m ih =>
    intro scores iterDone hlen hsum
    have hnew_len : (iterStep g d scores).length = g.size := iterStep_length g d scores
    have hnew_sum : (iterStep g d scores).sum = 1 := iterStep_sum hwf hn d scores hlen hsum
    simp only [computeLoop]
    split
    · exact hnew_sum
    · exact ih (iterStep g d scores) (iterDone + 1) hnew_len hnew_sum

/-- C1: for every reachable graph with `n ≥ 1` nodes and damping factor
`d ∈ (0,1]`, one pass of the iteration body of `Compute` maps a score
vector summing to 1 to a score vector summing to 1 (teleport, uniformly
redistributed dangling mass, and link-propagated mass conserve total
mass in exact arithmetic), and hence the score vector returned by
`Compute` after any number of completed iterations sums to exactly 1. -/
theorem pagerank_iteration_preserves_total_mass (g : Graph) (hg : Built g)
    (hn : 1 ≤ g.size) (d : ℚ) (hd0 : 0 < d) (hd1 : d ≤ 1) :
    (∀ scores : List ℚ, scores.length = g.size → scores.sum = 1 →
      (iterStep g d scores).sum = 1)
    ∧ ∀ (maxIter : Int) (tol : ℚ), ((compute g ⟨d, maxIter, tol⟩).1).sum = 1 := by
  have hwf := wf_of_built hg
  have hn' : g.size ≠ 0 := by omega
  have hcast : (g.size : ℚ) ≠ 0 := Nat.cast_ne_zero.mpr hn'
  constructor
  · intro scores hlen hsum
    exact iterStep_sum hwf hn' d scores hlen hsum
  · intro maxIter tol
    simp only [compute, if_neg hn']
    apply computeLoop_sum hwf hn' d tol
    · exact List.length_replicate _ _
    · rw [List.sum_replicate, nsmul_eq_mul, mul_one_div, div_self hcast]

/-- Witness for C1 on the concrete graph `{a → b}` with `d = 0.85`. -/
theorem pagerank_iteration_preserves_total_mass_witness :
    Built (addLink newGraph "a" "b") ∧ 1 ≤ (addLink newGraph "a" "b").size
    ∧ (0 : ℚ) < 17/20 ∧ (17 : ℚ)/20 ≤ 1
    ∧ ((compute (addLink newGraph "a" "b")
        ⟨17/20, 50, 1/1000000⟩).1).sum = 1 :=
  ⟨Built.link newGraph "a" "b" Built.new, by decide, by norm_num, by norm_num,
    (pagerank_iteration_preserves_total_mass (addLink newGraph "a" "b")
      (Built.link newGraph "a" "b" Built.new) (by decide) (17/20)
      (by norm_num) (by norm_num)).2 50 (1/1000000)⟩

/-! ## PageRank on a directed cycle (C5) -/

/-- A directed cycle A→B→…→A on `k` nodes as a `Graph` value: node `i`
links to `(i+1) % k` and receives from `(i+k-1) % k`; every out-degree
is 1. -/
def cycleGraph (k : Nat) : Graph :=
  { pages := (List.range k).map (fun i => (toString i, i))
    indices := (List.range k).map toString
    outLinks := (List.range k).map (fun i => [(i + 1) % k])
    inLinks := (List.range k).map (fun i => [(i + k - 1) % k])
    outDegree := List.replicate k 1 }

lemma cycleGraph_size (k : Nat) : (cycleGraph k).size = k := by
  simp [cycleGraph, Graph.size]

lemma getD_replicate_lt {α : Type} (k i : Nat) (c d : α) (h : i < k) :
    (List.replicate k c).getD i d = c := by
  simp [List.getD_eq_getElem?_getD, List.getElem?_replicate, h]

lemma cycle_outDegree_getD (k i : Nat) (h : i < k) :
    (cycleGraph k).outDegree.getD i 0 = 1 :=
  getD_replicate_lt k i 1 0 h

lemma cycle_inLinks_getD (k i : Nat) (h : i < k) :
    (cycleGraph k).inLinks.getD i [] = [(i + k - 1) % k] := by
  show (((List.range k).map (fun i => [(i + k - 1) % k]))).getD i [] = _
  rw [List.getD_eq_getElem?_getD, List.getElem?_map, List.getElem?_range h]
  rfl

lemma iterStep_cycle (k : Nat) (hk : k ≠ 0) (d : ℚ) :
    iterStep (cycleGraph k) d (List.replicate k (1 / (k : ℚ))) =
      List.replicate k (1 / (k : ℚ)) := by
  have hcast : (k : ℚ) ≠ 0 := Nat.cast_ne_zero.mpr hk
  simp only [iterStep, cycleGraph_size]
  have hds : ((List.range k).map (fun i =>
      if (cycleGraph k).outDegree.getD i 0 = 0 then
        (List.replicate k (1 / (k : ℚ))).getD i 0 else 0)).sum = 0 := by
    apply List.sum_eq_zero
    intro x hx
    simp only [List.mem_map, List.mem_range] at hx
    obtain ⟨i, hi, rfl⟩ := hx
    rw [cycle_outDegree_getD k i hi]
    simp
  rw [hds]
  refine List.eq_replicate_iff.mpr ⟨by simp, ?_⟩
  intro b hb
  simp only [List.mem_map, List.mem_range] at hb
  obtain ⟨i, hi, rfl⟩ := hb
  have hpred : (i + k - 1) % k < k := Nat.mod_lt _ (by omega)
  rw [cycle_inLinks_getD k i hi]
  simp only [List.map_cons, List.map_nil, List.sum_cons, List.sum_nil]
  rw [cycle_outDegree_getD k _ hpred, getD_replicate_lt k _ _ _ hpred,
    if_pos Nat.one_pos]
  push_cast
  field_simp

lemma l1diff_self (n : Nat) (xs : List ℚ) : l1diff n xs xs = 0 := by
  apply List.sum_eq_zero
  intro x hx
  simp only [List.mem_map] at hx
  obtain ⟨i, _, rfl⟩ := hx
  simp

/-- C5: running `Compute` on a directed cycle of `k ≥ 1` nodes with any
damping factor `d ∈ (0,1]`, positive tolerance, and at least one allowed
iteration converges (in one iteration, since the uniform vector is an
exact fixed point), with every node's final score equal to `1/k`. -/
theorem compute_cycle_converges_to_uniform (k : Nat) (hk : 1 ≤ k) (d : ℚ)
    (hd0 : 0 < d) (hd1 : d ≤ 1) (maxIter : Int) (hmi : 1 ≤ maxIter) (tol : ℚ)
    (htol : 0 < tol) :
    compute (cycleGraph k) ⟨d, maxIter, tol⟩ =
      (List.replicate k (1 / (k : ℚ)), 1, true) := by
  have hk' : k ≠ 0 := by omega
  obtain ⟨m, hm⟩ : ∃ m, maxIter.toNat = m + 1 := ⟨maxIter.toNat - 1, by omega⟩
  simp only [compute, cycleGraph_size, if_neg hk', hm, computeLoop]
  rw [iterStep_cycle k hk' d, l1diff_self, if_pos htol]

/-- Witness for C5: a 3-cycle with `d = 0.85`, tolerance `1e-6`,
100 iterations allowed. -/
theorem compute_cycle_converges_to_uniform_witness :
    1 ≤ 3 ∧ (0 : ℚ) < 17/20 ∧ (17 : ℚ)/20 ≤ 1 ∧ (1 : Int) ≤ 100
    ∧ (0 : ℚ) < 1/1000000
    ∧ compute (cycleGraph 3) ⟨17/20, 100, 1/1000000⟩ =
        (List.replicate 3 (1 / (3 : ℚ)), 1, true) :=
  ⟨by norm_num, by norm_num, by norm_num, by norm_num, by norm_num,
    compute_cycle_converges_to_uniform 3 (by norm_num) (17/20) (by norm_num)
      (by norm_num) 100 (by norm_num) (1/1000000) (by norm_num)⟩

/-! ## Non-positive iteration bound (C10) -/

/-- C10: on any graph with `n ≥ 1` nodes, `Compute` with
`MaxIterations ≤ 0` returns the uniform initial vector (`1/n` per node),
`iterations = 0` and `converged = false`: the loop body never runs, so no
convergence test is performed. -/
theorem compute_nonpositive_max_iterations (g : Graph) (hn : 1 ≤ g.size)
    (d tol : ℚ) (maxIter : Int) (hmi : maxIter ≤ 0) :
    compute g ⟨d, maxIter, tol⟩ =
      (List.replicate g.size (1 / (g.size : ℚ)), 0, false) := by
  have hn' : g.size ≠ 0 := by omega
  have h0 : maxIter.toNat = 0 := Int.toNat_eq_zero.mpr hmi
  simp only [compute, if_neg hn', h0, computeLoop]

/-- Witness for C10 on the concrete graph `{a → b}` with
`MaxIterations = -3`. -/
theorem compute_nonpositive_max_iterations_witness :
    1 ≤ (addLink newGraph "a" "b").size ∧ (-3 : Int) ≤ 0
    ∧ compute (addLink newGraph "a" "b") ⟨17/20, -3, 1/1000000⟩ =
        (List.replicate (addLink newGraph "a" "b").size
          (1 / ((addLink newGraph "a" "b").size : ℚ)), 0, false) :=
  ⟨by decide, by norm_num,
    compute_nonpositive_max_iterations (addLink newGraph "a" "b") (by decide)
      (17/20) (1/1000000) (-3) (by norm_num)⟩

/-! ## Crawler (internal/crawler/crawler.go) -/

/-- Embeds the fields of `crawler.Config` relevant here (`MaxDepth` is a
Go `int`, so it can be negative; `0` means unlimited). -/
structure Config where
  concurrency : Int
  maxDepth : Int
deriving Repr, DecidableEq

/-- Embeds `crawler.urlTask` (`depth` is a Go `int`). -/
structure UrlTask where
  url : String
  sourceURL : String
  depth : Int
deriving Repr, DecidableEq

/-- The depth test of `processURL` (line 178):
`c.config.MaxDepth > 0 && task.depth > c.config.MaxDepth`. -/
def depthExceeded (cfg : Config) (t : UrlTask) : Bool :=
  decide (cfg.maxDepth > 0 ∧ t.depth > cfg.maxDepth)

/-- Whether `processURL` reaches the HTTP request for a task, as far as the
depth check decides it: a task failing the depth test returns before
`http.NewRequestWithContext` is ever called. -/
def fetchAttempted (cfg : Config) (t : UrlTask) : Bool :=
  !(depthExceeded cfg t)

/-- C2/C6-adjacent sanity example. -/
example : fetchAttempted ⟨10, 2⟩ ⟨"u", "s", 3⟩ = false := by decide

/-- C6 counterexample: a crawl configured with the non-zero `maxDepth = -1`
fetches a task of depth `0 > -1`, contradicting the claim that every task
whose depth exceeds a non-zero `maxDepth` is dropped (the code tests
`MaxDepth > 0`, not `MaxDepth ≠ 0`). -/
theorem depth_check_ignores_negative_maxDepth :
    (-1 : Int) ≠ 0 ∧ (0 : Int) > -1
    ∧ fetchAttempted ⟨10, -1⟩ ⟨"https://site.com/", "", 0⟩ = true := by
  decide

/-- C6 amended: for every crawl configured with positive `maxDepth = d`, a
task whose depth exceeds `d` is dropped before the fetch, so no fetched
task has depth greater than `d`. -/
theorem fetch_depth_bounded (cfg : Config) (hd : 0 < cfg.maxDepth) (t : UrlTask) :
    (cfg.maxDepth < t.depth → fetchAttempted cfg t = false)
    ∧ (fetchAttempted cfg t = true → t.depth ≤ cfg.maxDepth) := by
  constructor <;> intro h2 <;> simp [fetchAttempted, depthExceeded] at * <;> omega

/-- Witness for the amended C6 at `maxDepth = 2`, `depth = 3`. -/
theorem fetch_depth_bounded_witness :
    (0 : Int) < (2 : Int)
    ∧ (((2 : Int) < 3 → fetchAttempted ⟨10, 2⟩ ⟨"u", "s", 3⟩ = false)
       ∧ (fetchAttempted ⟨10, 2⟩ ⟨"u", "s", 3⟩ = true → (3 : Int) ≤ 2)) :=
  ⟨by norm_num, fetch_depth_bounded ⟨10, 2⟩ (by norm_num) ⟨"u", "s", 3⟩⟩

/-! ### Seed validation (C7) -/

/-- The outcome of Go's `url.Parse` on the seed, abstracted to what the
validation in `Crawl` reads: either a parse error or a parsed URL carrying
its scheme. -/
inductive SeedParse
  | err
  | parsed (scheme : String)

/-- The seed validation and error propagation of `Crawl` (lines 72–79 and
145–149): a parse error or a scheme other than http/https returns an error
before any of the crawl machinery runs; otherwise the crawl proper
(`runCrawl`, standing for the worker pool, monitor, and result assembly)
runs and its result is returned with a nil error. -/
def crawlModel {α : Type} (seed : SeedParse) (runCrawl : Unit → α) : Except String α :=
  match seed with
  | .err => .error "invalid URL"
  | .parsed scheme =>
    if scheme ≠ "http" ∧ scheme ≠ "https" then
      .error "URL must use http or https scheme"
    else .ok (runCrawl ())

/-- The seed-validity predicate named by the spec: an absolute URL that
parses and has scheme http or https. -/
def seedValid : SeedParse → Bool
  | .err => false
  | .parsed scheme => scheme == "http" || scheme == "https"

/-- C7: `Crawl` returns an error iff the seed is unparseable or its scheme
is not http/https; such an error aborts before any fetch (the result is
independent of the crawl body), and no other condition makes `Crawl`
return an error. -/
theorem crawl_error_iff_invalid_seed {α : Type} (seed : SeedParse) (run : Unit → α) :
    ((∃ e, crawlModel seed run = .error e) ↔ seedValid seed = false)
    ∧ (seedValid seed = false →
        ∀ run₂ : Unit → α, crawlModel seed run = crawlModel seed run₂) := by
  cases seed with
  | err =>
    refine ⟨?_, fun _ _ => rfl⟩
    simp [crawlModel, seedValid]
  | parsed s =>
    by_cases h1 : s = "http"
    · subst h1
      refine ⟨?_, ?_⟩
      · simp [crawlModel, seedValid]
      · intro hc
        simp [seedValid] at hc
    · by_cases h2 : s = "https"
      · subst h2
        refine ⟨?_, ?_⟩
        · simp [crawlModel, seedValid]
        · intro hc
          simp [seedValid] at hc
      · refine ⟨?_, ?_⟩
        · simp [crawlModel, seedValid, h1, h2]
        · intro _ run₂
          simp [crawlModel, h1, h2]

/-- Witness for C7 at the rejected seed scheme `ftp`. -/
theorem crawl_error_iff_invalid_seed_witness :
    ((∃ e, crawlModel (SeedParse.parsed "ftp") (fun _ => (0 : Nat)) = .error e)
      ↔ seedValid (SeedParse.parsed "ftp") = false)
    ∧ (seedValid (SeedParse.parsed "ftp") = false →
        ∀ run₂ : Unit → Nat,
          crawlModel (SeedParse.parsed "ftp") (fun _ => (0 : Nat)) =
            crawlModel (SeedParse.parsed "ftp") run₂) :=
  crawl_error_iff_invalid_seed (SeedParse.parsed "ftp") (fun _ => (0 : Nat))

/-! ### Frontier enqueue (C3) -/

/-- Capacity of the task channel created in `Crawl` (line 84):
`make(chan urlTask, 1000)`. -/
def tasksChannelCap : Nat := 1000

/-- The non-blocking enqueue of `processURL` (lines 235–241): a `select`
with a `default` branch sends the task when the channel has free capacity
and otherwise silently discards it. -/
def enqueueTask (queue : List UrlTask) (t : UrlTask) : List UrlTask :=
  if queue.length < tasksChannelCap then queue ++ [t] else queue

/-- C3: the code drops a discovered in-domain, unvisited link when the
bounded task channel is full — with 1000 tasks already queued, enqueueing
a fresh link leaves the queue unchanged and the link is in no queue
entry, so it is never fetched (it was already marked visited, so it will
never be re-enqueued either).  This contradicts the claim (and the spec
flags the behavior as a defect). -/
theorem discovered_link_dropped_on_full_queue :
    enqueueTask
        (List.replicate 1000 ⟨"https://site.com/a", "https://site.com/", 1⟩)
        ⟨"https://site.com/new", "https://site.com/a", 2⟩ =
      List.replicate 1000 ⟨"https://site.com/a", "https://site.com/", 1⟩
    ∧ (⟨"https://site.com/new", "https://site.com/a", 2⟩ : UrlTask) ∉
        List.replicate 1000 ⟨"https://site.com/a", "https://site.com/", 1⟩ := by
  constructor
  · simp only [enqueueTask, List.length_replicate, tasksChannelCap]
    rw [if_neg (lt_irrefl 1000)]
  · intro hmem
    rw [List.mem_replicate] at hmem
    simp at hmem

/-! ### Visited-set dedup under interleaving (C2) -/

/-- Interleaving model of the dedup for one fixed discovered URL.
`decided w` is worker `w`'s stored `shouldVisit` result; `enqueued` counts
how many times the URL is marked-and-sent (each successful send leads to
one fetch of the URL). -/
structure DedupState where
  visited : Bool
  decided : Nat → Bool
  enqueued : Nat

/-- One atomic action: `check w` is worker `w`'s `shouldVisit` call
(lines 253–265, a read-locked lookup of the visited map combined with the
same-domain test); `mark w` is its later `markVisited` plus channel send
(lines 233–240, performed only when its own earlier check returned
true).  The two are separate critical sections in the code, so other
workers' actions may interleave between them. -/
inductive DedupAct
  | check (w : Nat)
  | mark (w : Nat)

def dedupStep (sameDomain : Bool) (s : DedupState) : DedupAct → DedupState
  | .check w =>
    { s with decided := fun x => if x = w then sameDomain && !s.visited else s.decided x }
  | .mark w =>
    if s.decided w then
      { visited := true, decided := s.decided, enqueued := s.enqueued + 1 }
    else s

def dedupRun (sameDomain : Bool) (s : DedupState) : List DedupAct → DedupState
  | [] => s
  | a :: rest => dedupRun sameDomain (dedupStep sameDomain s a) rest

def dedupInit : DedupState :=
  { visited := false, decided := fun _ => false, enqueued := 0 }

/-- C2 counterexample: because `shouldVisit` and `markVisited` are two
separate lock acquisitions rather than one atomic step, two workers that
both discover the same in-domain URL can interleave
check–check–mark–mark, and the URL is enqueued (hence fetched) twice. -/
theorem split_check_mark_allows_double_fetch :
    (dedupRun true dedupInit
      [DedupAct.check 0, DedupAct.check 1, DedupAct.mark 0, DedupAct.mark 1]).enqueued
      = 2 := by
  rfl

lemma dedup_pair (sd : Bool) (s : DedupState) (w : Nat) :
    (dedupStep sd (dedupStep sd s (.check w)) (.mark w)).enqueued =
      (if sd && !s.visited then s.enqueued + 1 else s.enqueued)
    ∧ (dedupStep sd (dedupStep sd s (.check w)) (.mark w)).visited =
      (if sd && !s.visited then true else s.visited) := by
  simp only [dedupStep]
  by_cases h : (sd && !s.visited) = true
  · simp [h]
  · simp [h]

/-- C2 amended: the check and the mark are split into two separate
lock-protected steps; when every worker's check-and-mark pair executes
contiguously (the atomic schedules), each URL is enqueued — hence
fetched — at most once, for any number of workers. -/
theorem atomic_check_mark_fetches_at_most_once (sameDomain : Bool) (ws : List Nat) :
    (dedupRun sameDomain dedupInit
      (ws.flatMap (fun w => [DedupAct.check w, DedupAct.mark w]))).enqueued ≤ 1 := by
  suffices h : ∀ (l : List Nat) (s : DedupState), (s.visited = false → s.enqueued = 0) →
      s.enqueued ≤ 1 →
      (dedupRun sameDomain s
        (l.flatMap (fun w => [DedupAct.check w, DedupAct.mark w]))).enqueued ≤ 1 by
    exact h ws dedupInit (fun _ => rfl) (by simp [dedupInit])
  intro l
  induction l with
  | nil =>
    intro s _ h2
    simpa [dedupRun] using h2
  | cons w rest ih =>
    intro s h1 h2
    rw [List.flatMap_cons]
    simp only [List.cons_append, List.nil_append, dedupRun]
    obtain ⟨he, hv⟩ := dedup_pair sameDomain s w
    apply ih
    · intro hfv
      rw [hv] at hfv
      rw [he]
      by_cases h : (sameDomain && !s.visited) = true
      · rw [if_pos h] at hfv
        cases hfv
      · rw [if_neg h] at hfv
        rw [if_neg h]
        exact h1 hfv
    · rw [he]
      by_cases h : (sameDomain && !s.visited) = true
      · rw [if_pos h]
        have hv0 : s.visited = false := by
          rcases (Bool.and_eq_true _ _).mp h with ⟨_, h4⟩
          simpa using h4
        have := h1 hv0
        omega
      · rw [if_neg h]
        exact h2

/-! ### Safety cap and termination (C8) -/

/-- The monitor's safety-cap test in `Crawl` (line 130):
`visitedCount > 10000`. -/
def capReached (visitedCount : Nat) : Bool :=
  decide (visitedCount > 10000)

/-- Sequential step model of the crawl driven by the monitor: `visited`
is the visited map (its key set), `queue` the buffered task channel
(URLs only; depth is irrelevant to the cap). -/
structure CrawlState where
  visited : List String
  queue : List String
deriving Repr, DecidableEq

/-- The link loop of `processURL` (lines 231–242) in the model: each
extracted link is checked against the visited set (`shouldVisit`), marked
(`markVisited`), and sent through the non-blocking send, which drops the
link when the channel (capacity 1000) is full. -/
def enqueueLinks (links : List String) (st : CrawlState) : CrawlState :=
  match links with
  | [] => st
  | l :: rest =>
    if l ∈ st.visited then enqueueLinks rest st
    else
      enqueueLinks rest
        { visited := l :: st.visited
          queue := if st.queue.length < tasksChannelCap then st.queue ++ [l] else st.queue }

/-- The crawl loop as the monitor observes it: before each task the cap is
checked (`visitedCount > 10000` ends the crawl, line 130), an empty
frontier ends the crawl, otherwise one task is dequeued and processed.
`none` means the fuel ran out (used only to express termination). -/
def crawlRun (site : String → List String) : Nat → CrawlState → Option CrawlState
  | 0, _ => none
  | fuel + 1, st =>
    if capReached st.visited.length then some st
    else
      match st.queue with
      | [] => some st
      | u :: rest =>
        crawlRun site fuel (enqueueLinks (site u) { visited := st.visited, queue := rest })

/-- Initial state of `Crawl` (lines 87–88): the seed is marked visited and
enqueued. -/
def crawlInit (seed : String) : CrawlState :=
  { visited := [seed], queue := [seed] }

lemma enqueueLinks_visited_le (ls : List String) (s : CrawlState) :
    s.visited.length ≤ (enqueueLinks ls s).visited.length := by
  induction ls generalizing s with
  | nil => exact le_refl _
  | cons l rest ih =>
    show s.visited.length ≤ (if l ∈ s.visited then enqueueLinks rest s else _).visited.length
    split
    · exact ih s
    · exact le_trans (Nat.le_succ _)
        (ih { visited := l :: s.visited
              queue := if s.queue.length < tasksChannelCap then s.queue ++ [l]
                       else s.queue })

lemma enqueueLinks_visited_bound (ls : List String) (s : CrawlState) :
    (enqueueLinks ls s).visited.length ≤ s.visited.length + ls.length := by
  induction ls generalizing s with
  | nil => simp [enqueueLinks]
  | cons l rest ih =>
    show (if l ∈ s.visited then enqueueLinks rest s else _).visited.length ≤ _
    split
    · have := ih s
      simp only [List.length_cons]
      omega
    · have := ih { visited := l :: s.visited
                   queue := if s.queue.length < tasksChannelCap then s.queue ++ [l] else s.queue }
      simp only [List.length_cons] at this ⊢
      omega

lemma enqueueLinks_measure (ls : List String) (s : CrawlState)
    (hfin : (enqueueLinks ls s).visited.length ≤ 10001) :
    2 * (10001 - (enqueueLinks ls s).visited.length) + (enqueueLinks ls s).queue.length ≤
      2 * (10001 - s.visited.length) + s.queue.length := by
  induction ls generalizing s with
  | nil => exact le_refl _
  | cons l rest ih =>
    have hunfold : enqueueLinks (l :: rest) s =
        if l ∈ s.visited then enqueueLinks rest s
        else enqueueLinks rest
          { visited := l :: s.visited
            queue := if s.queue.length < tasksChannelCap then s.queue ++ [l] else s.queue } :=
      rfl
    rw [hunfold] at hfin ⊢
    split at hfin
    · rename_i hl
      rw [if_pos hl]
      exact ih s hfin
    · rename_i hl
      rw [if_neg hl]
      have hmono := enqueueLinks_visited_le rest
        { visited := l :: s.visited
          queue := if s.queue.length < tasksChannelCap then s.queue ++ [l] else s.queue }
      have hstep := ih
        { visited := l :: s.visited
          queue := if s.queue.length < tasksChannelCap then s.queue ++ [l] else s.queue } hfin
      have hq : (if s.queue.length < tasksChannelCap then s.queue ++ [l] else s.queue).length ≤
          s.queue.length + 1 := by
        split <;> simp
      simp only [List.length_cons] at hmono hstep
      omega

lemma crawlRun_total (site : String → List String) (fuel : Nat) :
    ∀ st : CrawlState,
      (2 * (10001 - st.visited.length) + st.queue.length + 1 ≤ fuel
        ∨ (10000 < st.visited.length ∧ 1 ≤ fuel)) →
      (crawlRun site fuel st).isSome := by
  induction fuel with
  | zero =>
    intro st h
    exfalso
    omega
  | succ f ih =>
    intro st h
    show (if capReached st.visited.length then some st else _).isSome
    by_cases hcap : capReached st.visited.length
    · rw [if_pos hcap]
      rfl
    · rw [if_neg hcap]
      have hv : st.visited.length ≤ 10000 := by
        simp only [capReached, decide_eq_true_eq, gt_iff_lt] at hcap
        omega
      have hfuel : 2 * (10001 - st.visited.length) + st.queue.length + 1 ≤ f + 1 := by
        rcases h with h | ⟨h1, _⟩
        · exact h
        · omega
      cases hq : st.queue with
      | nil => rfl
      | cons u rest =>
        apply ih
        have hdeq : 2 * (10001 - st.visited.length) + rest.length + 1 ≤ f := by
          rw [hq] at hfuel
          simp only [List.length_cons] at hfuel
          omega
        by_cases hfin :
            (enqueueLinks (site u) { visited := st.visited, queue := rest }).visited.length ≤ 10001
        · left
          have hm := enqueueLinks_measure (site u) { visited := st.visited, queue := rest } hfin
          dsimp only at hm
          omega
        · right
          constructor
          · omega
          · omega

lemma crawlRun_visited_bound (site : String → List String) (L : Nat)
    (hL : ∀ u, (site u).length ≤ L) (fuel : Nat) :
    ∀ st st' : CrawlState, crawlRun site fuel st = some st' →
      st.visited.length ≤ 10000 + L → st'.visited.length ≤ 10000 + L := by
  induction fuel with
  | zero =>
    intro st st' hrun
    cases hrun
  | succ f ih =>
    intro st st' hrun hstart
    rw [show crawlRun site (f + 1) st =
      (if capReached st.visited.length then some st else
        match st.queue with
        | [] => some st
        | u :: rest =>
          crawlRun site f (enqueueLinks (site u) { visited := st.visited, queue := rest }))
      from rfl] at hrun
    split at hrun
    · cases hrun
      exact hstart
    · rename_i hcap
      have hv : st.visited.length ≤ 10000 := by
        simp only [capReached, decide_eq_true_eq, gt_iff_lt] at hcap
        omega
      split at hrun
      · cases hrun
        exact hstart
      · rename_i u rest _
        apply ih _ _ hrun
        have hb := enqueueLinks_visited_bound (site u) { visited := st.visited, queue := rest }
        have hLu := hL u
        dsimp only at hb
        omega

/-- C8 amended (termination and bound): in the step model, for any site
whose pages carry at most `L` links each, the crawl from any seed
terminates without error within a fixed fuel budget, and the number of
visited URLs stays below `10000 + L` — the monitor ends the crawl as soon
as the count exceeds 10,000, but only after the count has already passed
the cap. -/
theorem crawl_model_terminates_visits_bounded (site : String → List String) (L : Nat)
    (hL : ∀ u, (site u).length ≤ L) (seed : String) :
    ∃ st' : CrawlState, crawlRun site 20002 (crawlInit seed) = some st'
      ∧ st'.visited.length ≤ 10000 + L := by
  have htot : (crawlRun site 20002 (crawlInit seed)).isSome := by
    apply crawlRun_total
    left
    simp [crawlInit]
  obtain ⟨st', hst'⟩ := Option.isSome_iff_exists.mp htot
  refine ⟨st', hst', ?_⟩
  apply crawlRun_visited_bound site L hL 20002 (crawlInit seed) st' hst'
  simp [crawlInit]
  omega

/-- A synthetic site generating unboundedly many unique URLs: every page
links to one fresh URL (`u ++ "x"`). -/
def chainSite (u : String) : List String := [u ++ "x"]

/-- The `k`-th URL of the chain: `"s"` followed by `k` copies of `'x'`. -/
def chainUrl (k : Nat) : String := String.mk ('s' :: List.replicate k 'x')

/-- The crawl state after `k` steps on the chain site. -/
def chainState (k : Nat) : CrawlState :=
  { visited := ((List.range (k + 1)).reverse).map chainUrl, queue := [chainUrl k] }

lemma chainUrl_append (k : Nat) : chainUrl k ++ "x" = chainUrl (k + 1) := by
  apply String.ext
  show ('s' :: List.replicate k 'x') ++ ['x'] = 's' :: List.replicate (k + 1) 'x'
  rw [List.cons_append, ← List.replicate_succ']

lemma chainUrl_len (k : Nat) : (chainUrl k).length = k + 1 := by
  show ('s' :: List.replicate k 'x').length = k + 1
  simp

lemma chainUrl_not_mem (k : Nat) :
    chainUrl (k + 1) ∉ ((List.range (k + 1)).reverse).map chainUrl := by
  intro hmem
  rcases List.mem_map.mp hmem with ⟨i, hi, hEq⟩
  have hi' : i < k + 1 := by
    have := List.mem_reverse.mp hi
    exact List.mem_range.mp this
  have := congrArg String.length hEq
  rw [chainUrl_len, chainUrl_len] at this
  omega

lemma chain_step (k : Nat) (hk : k < 10000) (f : Nat) :
    crawlRun chainSite (f + 1) (chainState k) = crawlRun chainSite f (chainState (k + 1)) := by
  have hlen : (chainState k).visited.length = k + 1 := by
    simp [chainState]
  have hcap : capReached (chainState k).visited.length = false := by
    rw [hlen]
    simp only [capReached, decide_eq_false_iff_not]
    omega
  show (if capReached (chainState k).visited.length then some (chainState k) else
      match (chainState k).queue with
      | [] => some (chainState k)
      | u :: rest =>
        crawlRun chainSite f (enqueueLinks (chainSite u)
          { visited := (chainState k).visited, queue := rest })) = _
  rw [hcap]
  show crawlRun chainSite f (enqueueLinks [chainUrl k ++ "x"]
    { visited := (chainState k).visited, queue := [] }) = _
  congr 1
  show (if (chainUrl k ++ "x") ∈ (chainState k).visited then _ else _) = _
  rw [chainUrl_append]
  rw [if_neg (by exact chainUrl_not_mem k)]
  show ({ visited := chainUrl (k + 1) :: (chainState k).visited
          queue := if ([] : List String).length < tasksChannelCap then [] ++ [chainUrl (k + 1)]
                   else [] } : CrawlState) = chainState (k + 1)
  rw [if_pos (by simp [tasksChannelCap])]
  show ({ visited := chainUrl (k + 1) :: (chainState k).visited
          queue := [chainUrl (k + 1)] } : CrawlState) = chainState (k + 1)
  have hvis : chainUrl (k + 1) :: (chainState k).visited = (chainState (k + 1)).visited := by
    show _ = ((List.range (k + 2)).reverse).map chainUrl
    rw [List.range_succ, List.reverse_append]
    simp [chainState]
  rw [hvis]
  rfl

lemma chain_run (j : Nat) :
    ∀ k, k + j = 10000 →
      crawlRun chainSite (j + 1) (chainState k) = some (chainState 10000) := by
  induction j with
  | zero =>
    intro k hk
    have hk' : k = 10000 := by omega
    subst hk'
    have hcap : capReached (chainState 10000).visited.length = true := by
      have hlen : (chainState 10000).visited.length = 10001 := by
        simp [chainState]
      rw [hlen]
      simp [capReached]
    show (if capReached (chainState 10000).visited.length then some (chainState 10000) else _) = _
    rw [hcap]
    simp
  | succ j ih =>
    intro k hk
    rw [chain_step k (by omega) (j + 1)]
    exact ih (k + 1) (by omega)

/-- C8 counterexample: on a site generating unboundedly many unique URLs
the crawl does terminate without error, but the monitor's cap test is the
strict `visitedCount > 10000`, so the crawl ends with 10,001 visited URLs —
the number of visited URLs exceeds the 10,000 safety cap. -/
theorem crawl_visits_can_exceed_cap :
    crawlRun chainSite 10001 (crawlInit (chainUrl 0)) = some (chainState 10000)
    ∧ (chainState 10000).visited.length = 10001 := by
  have hinit : crawlInit (chainUrl 0) = chainState 0 := by
    simp [crawlInit, chainState, List.range_succ]
  constructor
  · rw [hinit]
    exact chain_run 10000 0 rfl
  · simp [chainState]

/-- Witness for the amended C8 on the empty site. -/
theorem crawl_model_terminates_visits_bounded_witness :
    (∀ u : String, ((fun _ : String => ([] : List String)) u).length ≤ 0)
    ∧ ∃ st' : CrawlState,
        crawlRun (fun _ : String => ([] : List String)) 20002 (crawlInit "s") = some st'
        ∧ st'.visited.length ≤ 10000 + 0 :=
  ⟨fun _ => le_refl 0,
    crawl_model_terminates_visits_bounded (fun _ => []) 0 (fun _ => le_refl 0) "s"⟩

/-! ## robots.txt checker (internal/indexer/robots.go) -/

/-- Embeds the state of `indexer.RobotsChecker` read by `IsBlocked`
(`loadError` is never read back). -/
structure RobotsChecker where
  rules : List String
  loaded : Bool
deriving Repr, DecidableEq

/-- Embeds `indexer.NewRobotsChecker`. -/
def newRobotsChecker : RobotsChecker := { rules := [], loaded := false }

/-- Go `strings.SplitN(s, ":", 2)` as `Load` uses it: the text before the
first colon and everything after it, or `none` when the line has no colon
(`len(parts) != 2`). -/
def splitOnceColon (s : String) : Option (String × String) :=
  match s.splitOn ":" with
  | [] => none
  | [_] => none
  | a :: rest => some (a, String.intercalate ":" rest)

/-- The scanner loop of `Load` (lines 50–79): skip blank and `#` lines,
track whether the current `User-agent` section is `*`, and collect
non-empty `Disallow` values inside such sections. -/
def parseRobotsLines : Bool → List String → List String → List String
  | _, rules, [] => rules
  | inAll, rules, line :: rest =>
    let l := line.trim
    if l = "" || l.startsWith "#" then parseRobotsLines inAll rules rest
    else
      match splitOnceColon l with
      | none => parseRobotsLines inAll rules rest
      | some (a, b) =>
        let directive := a.trim.toLower
        let value := b.trim
        if directive = "user-agent" then parseRobotsLines (value == "*") rules rest
        else if directive = "disallow" then
          if inAll && value != "" then parseRobotsLines inAll (rules ++ [value]) rest
          else parseRobotsLines inAll rules rest
        else parseRobotsLines inAll rules rest

/-- The observable outcome of the HTTP GET for robots.txt: a transport
error, or a response with its status code, the body lines the scanner
yields, and whether the scanner then reports a read error. -/
inductive RobotsFetch
  | transportErr
  | response (statusCode : Nat) (lines : List String) (readErr : Bool)

/-- Embeds `(*RobotsChecker).Load` (lines 28–83) as a function of the fetch
outcome, returning the checker state and Go's returned error.  A transport
error leaves `loaded` false; a non-200 status sets `loaded` with no rules;
a 200 response parses the scanned lines, sets `loaded` (line 81 runs even
when the scanner failed), and returns `scanner.Err()`. -/
def load (fetch : RobotsFetch) : RobotsChecker × Option String :=
  match fetch with
  | .transportErr => ({ rules := [], loaded := false }, some "fetch error")
  | .response code lines readErr =>
    if code ≠ 200 then ({ rules := [], loaded := true }, none)
    else
      ({ rules := parseRobotsLines false [] lines, loaded := true },
        if readErr then some "read error" else none)

/-- Embeds `indexer.matchesRule` (lines 120–135). -/
def matchesRule (path rule : String) : Bool :=
  if rule.endsWith "*" then path.startsWith (rule.dropRight 1)
  else if rule.endsWith "$" then path == rule.dropRight 1
  else path.startsWith rule

/-- Embeds `(*RobotsChecker).IsBlocked` (lines 86–108); the argument is the
result of `url.Parse` on the target URL, abstracted to `none` on a parse
error and otherwise the parsed `Path`. -/
def isBlocked (r : RobotsChecker) (parsedPath : Option String) : Bool :=
  if !r.loaded || r.rules.length == 0 then false
  else
    match parsedPath with
    | none => false
    | some p =>
      let path := if p = "" then "/" else p
      r.rules.any (fun rule => matchesRule path rule)

example : isBlocked ⟨["/private"], true⟩ (some "/private/x") = true := by
  with_unfolding_all decide

/-- C9 counterexample: when the robots.txt body yields
`User-agent: * / Disallow: /private` and the scanner then hits a read
error, `Load` returns an error, yet the checker is marked loaded with the
parsed rule, and `IsBlocked` reports `/private/x` blocked — so "`Load`
failed with an error" does not imply `IsBlocked` is false, and a URL can
be reported blocked although robots.txt was not successfully loaded. -/
theorem load_error_can_still_block :
    (load (.response 200 ["User-agent: *", "Disallow: /private"] true)).2.isSome = true
    ∧ isBlocked (load (.response 200 ["User-agent: *", "Disallow: /private"] true)).1
        (some "/private/x") = true := by
  constructor
  · rfl
  · with_unfolding_all decide

/-- C9 amended: the checker fails open — `IsBlocked` is false before any
`Load`, after a `Load` whose HTTP request itself failed (transport error),
whenever no `Disallow` rule was collected, and for unparseable target
URLs; and a URL is reported blocked only when the loaded flag is set
(which a mid-body read error does not prevent) and some parsed rule
matches its path. -/
theorem robots_checker_fails_open (r : RobotsChecker) (t : Option String) :
    isBlocked newRobotsChecker t = false
    ∧ ((load .transportErr).1 = newRobotsChecker
        ∧ isBlocked (load .transportErr).1 t = false)
    ∧ (r.rules = [] → isBlocked r t = false)
    ∧ isBlocked r none = false
    ∧ (isBlocked r t = true →
        r.loaded = true ∧ ∃ p, t = some p
          ∧ ∃ rule ∈ r.rules, matchesRule (if p = "" then "/" else p) rule = true) := by
  refine ⟨?_, ⟨rfl, ?_⟩, ?_, ?_, ?_⟩
  · simp [isBlocked, newRobotsChecker]
  · simp [isBlocked, load, newRobotsChecker]
  · intro hr
    simp [isBlocked, hr]
  · simp [isBlocked]
  · intro hb
    simp only [isBlocked] at hb
    by_cases hcond : (!r.loaded || r.rules.length == 0) = true
    · rw [if_pos hcond] at hb
      cases hb
    · rw [if_neg hcond] at hb
      have hload : r.loaded = true := by
        rcases Bool.eq_false_or_eq_true r.loaded with h | h
        · exact h
        · exact absurd (by simp [h]) hcond
      refine ⟨hload, ?_⟩
      cases t with
      | none => cases hb
      | some p =>
        refine ⟨p, rfl, ?_⟩
        simpa using List.any_eq_true.mp hb

/-- Witness for the amended C9 at a loaded checker with one rule. -/
theorem robots_checker_fails_open_witness :
    isBlocked newRobotsChecker (some "/a") = false
    ∧ ((load .transportErr).1 = newRobotsChecker
        ∧ isBlocked (load .transportErr).1 (some "/a") = false)
    ∧ ((⟨["/p"], true⟩ : RobotsChecker).rules = [] →
        isBlocked ⟨["/p"], true⟩ (some "/a") = false)
    ∧ isBlocked ⟨["/p"], true⟩ none = false
    ∧ (isBlocked ⟨["/p"], true⟩ (some "/a") = true →
        (⟨["/p"], true⟩ : RobotsChecker).loaded = true ∧ ∃ p, (some "/a") = some p
          ∧ ∃ rule ∈ (⟨["/p"], true⟩ : RobotsChecker).rules,
              matchesRule (if p = "" then "/" else p) rule = true) :=
  ⟨(robots_checker_fails_open ⟨["/p"], true⟩ (some "/a")).1,
    (robots_checker_fails_open ⟨["/p"], true⟩ (some "/a")).2.1,
    (robots_checker_fails_open ⟨["/p"], true⟩ (some "/a")).2.2.1,
    (robots_checker_fails_open ⟨["/p"], true⟩ (some "/a")).2.2.2.1,
    (robots_checker_fails_open ⟨["/p"], true⟩ (some "/a")).2.2.2.2⟩

end WebAudit
